import Mathlib

/-!
Verification of the polynomial-regression core in `src/regressors.py`.

Numbers are modelled as rationals (exact arithmetic standing in for the
floating-point numbers of the source), matrices as lists of lists of
rationals.  Fallible Python functions (ones whose assertions or indexing
can raise) are embedded as `Except String` computations.
-/

/-- Models the dynamic type of the `n_pol` argument: Python is dynamically
typed, and `get_model_matrix` asserts `type(n_pol) == int`.  `PInt` is a
Python `int`, `PFloat` a `float`, `PBool` a `bool` (in Python
`type(True) == int` is `False`, so booleans fail the assertion too). -/
inductive PyNum where
  | PInt : ℤ → PyNum
  | PFloat : ℚ → PyNum
  | PBool : Bool → PyNum
deriving DecidableEq

/-- Models the Python test `type(n_pol) == int`. -/
def isIntType : PyNum → Bool
  | .PInt _ => true
  | _ => false

/-- Auxiliary for `cwr`: one layer of selection, `rec` producing the
shorter combinations that a chosen head element is prepended to. -/
def cwrGo {α : Type} (rec : List α → List (List α)) : List α → List (List α)
  | [] => []
  | x :: rest => (rec (x :: rest)).map (fun c => x :: c) ++ cwrGo rec rest

/-- Recursion on the selection size for `cwr`. -/
def cwrK {α : Type} : ℕ → List α → List (List α)
  | 0, _ => [[]]
  | k + 1, xs => cwrGo (cwrK k) xs

/-- Models `itertools.combinations_with_replacement(xs, k)`: all sorted
(with repetition) selections of `k` elements from `xs`, emitted in the
lexicographic order the itertools documentation specifies.  Characterised
by the equations `cwr_zero`, `cwr_nil` and `cwr_cons`. -/
def cwr {α : Type} (xs : List α) (k : ℕ) : List (List α) := cwrK k xs

/-- Models lines 54-60 of `regressors.py`: `indices = range(len(data_points))`
and the accumulation of `itertools.combinations_with_replacement(indices, i)`
for `i` in `range(1, n_pol + 1)` (empty when `n_pol <= 0`, exactly as
Python's `range`). -/
def indexCombinations (nfeat : ℕ) (n_pol : ℤ) : List (List ℕ) :=
  ((List.range' 1 n_pol.toNat).map (fun d => cwr (List.range nfeat) d)).flatten

/-- Models the inner loop of lines 63-77 of `regressors.py`: the elementwise
product of the feature sequences selected by one index combination, built by
starting from the first selected sequence and multiplying the rest in
(`product = product * data_points[...]`, numpy elementwise `*`). -/
def ewProd (dp : List (List ℚ)) : List ℕ → List ℚ
  | [] => []
  | j :: rest =>
      rest.foldl (fun acc k => List.zipWith (· * ·) acc (dp.getD k [])) (dp.getD j [])

/-- Models `np.array(columns).T` for a rectangular list of equal-length
columns: row `i` collects the `i`-th entry of every column.  (For the
malformed ragged inputs that the broken shape assertion lets through,
2021-era numpy silently builds an object array instead of raising; the
salient modelled fact is that no error occurs.) -/
def listTranspose (cols : List (List ℚ)) : List (List ℚ) :=
  (List.range (cols.headD []).length).map (fun i => cols.map (fun c => c.getD i 0))

/-- Models the loop at lines 43-45 of `regressors.py`:
`for i in range(len(data_points)): assert len(data_points[0]) == len(data_points[1])`.
Every iteration runs the same assertion; with a single feature sequence the
subscript `data_points[1]` itself raises `IndexError`, and with none the loop
body never runs. -/
def shapeCheck (dp : List (List ℚ)) : Except String Unit :=
  match dp with
  | [] => .ok ()
  | [_] => .error "IndexError"
  | a :: b :: _ =>
      if a.length = b.length then .ok () else .error "AssertionError: shape mismatch"

/-- Models `get_model_matrix(data_points, n_pol, include_intercept)`
(lines 35-80 of `regressors.py`): the shape-check loop, the
`type(n_pol) == int` assertion, the optional `np.ones(len(data_points[0]))`
intercept column (an `IndexError` when `data_points` is empty), the
polynomial product columns, and the final transpose. -/
def get_model_matrix (dp : List (List ℚ)) (n_pol : PyNum) (include_intercept : Bool) :
    Except String (List (List ℚ)) := do
  _ ← shapeCheck dp
  match n_pol with
  | .PInt z =>
      match dp, include_intercept with
      | [], true => .error "IndexError"
      | _, _ =>
          let intercept : List (List ℚ) :=
            if include_intercept then [List.replicate (dp.getD 0 []).length 1] else []
          let cols := intercept ++ (indexCombinations dp.length z).map (ewProd dp)
          .ok (listTranspose cols)
  | _ => .error "AssertionError: n_pol type"

/-- Dot product of two equal-length numeric vectors, as in numpy's `@`. -/
def listDot (a b : List ℚ) : ℚ := (List.zipWith (· * ·) a b).sum

/-- Models `get_prediction(model_matrix, beta, intercept)` (lines 22-23 of
`regressors.py`): `model_matrix @ beta + intercept`, the scalar intercept
broadcast over the rows. -/
def get_prediction (M : List (List ℚ)) (beta : List ℚ) (intercept : ℚ) : List ℚ :=
  M.map (fun row => listDot row beta + intercept)

/-- Models `np.max` of a nonempty vector (`0` in the never-used empty case,
where numpy would raise). -/
def maxL : List ℚ → ℚ
  | [] => 0
  | x :: xs => xs.foldl max x

/-- Models `np.min` of a nonempty vector (`0` in the never-used empty case). -/
def minL : List ℚ → ℚ
  | [] => 0
  | x :: xs => xs.foldl min x

/-- Models `np.mean(matrix, axis=0)`: per-column sums divided by the row
count. -/
def colMeans (M : List (List ℚ)) : List ℚ :=
  (listTranspose M).map (fun c => c.sum / c.length)

/-- Models `np.max(matrix, axis=0) - np.min(matrix, axis=0)` (line 28 of
`regressors.py`). -/
def colRanges (M : List (List ℚ)) : List ℚ :=
  (listTranspose M).map (fun c => maxL c - minL c)

/-- One row of the scaler transform: `(row - m_mean) / divisor`, numpy
elementwise arithmetic over equal-length vectors. -/
def rowScale (mean divisor row : List ℚ) : List ℚ :=
  List.zipWith (· / ·) (List.zipWith (· - ·) row mean) divisor

/-- Models `center(matrix)` (lines 25-33 of `regressors.py`) observationally:
the mean and range are taken before the loop, and the loop rewrites row `i`
from its original value, so the final matrix is the rowwise transform of the
original.  (The in-place nature of the loop is modelled separately by
`centerRef`.) -/
def center (M : List (List ℚ)) : List (List ℚ) × List ℚ × List ℚ :=
  (M.map (rowScale (colMeans M) (colRanges M)), colMeans M, colRanges M)

/-- Models `np.mean` of a vector. -/
def meanL (l : List ℚ) : ℚ := l.sum / l.length

/-- Models the `fit_intercept` branch of `regressor` (lines 140-157 of
`regressors.py`), parameterised by the fitting function `fit` standing for
`get_beta` with its kind, parameter bundle and random draws fixed: build the
train design matrix without intercept column, center it, fit `beta`, predict
train with `np.mean(train_targets)` as intercept; then build the test design
matrix, transform it with the train-derived mean and range
(`(test_model_matrix - train_mean) / divisor_scaler`, line 155), and predict
with the same intercept. -/
def regressor_fit_intercept (fit : List (List ℚ) → List ℚ → List ℚ)
    (trainInputs : List (List ℚ)) (trainTargets : List ℚ)
    (testInputs : List (List ℚ)) (n_pol : PyNum) :
    Except String (List ℚ × List ℚ) := do
  let trainM ← get_model_matrix trainInputs n_pol false
  let c := center trainM
  let beta := fit c.1 trainTargets
  let trainPred := get_prediction c.1 beta (meanL trainTargets)
  let testM ← get_model_matrix testInputs n_pol false
  let centeredTestM := testM.map (rowScale c.2.1 c.2.2)
  let testPred := get_prediction centeredTestM beta (meanL trainTargets)
  .ok (trainPred, testPred)

/-- Feature values of sample `i`: the `i`-th entry of every feature
sequence. -/
def pointAt (dp : List (List ℚ)) (i : ℕ) : List ℚ :=
  dp.map (fun s => s.getD i 0)

/-- Modelled from the spec: the design-matrix row of a single data point,
"for each degree `d` from 1 to `n_pol`, the elementwise products of every
combination-with-replacement of `d` feature indices" evaluated at that
point — entry `c` is the product of the point's coordinates selected by the
combination `c`. -/
def designRow (nfeat : ℕ) (n_pol : ℤ) (point : List ℚ) : List ℚ :=
  (indexCombinations nfeat n_pol).map (fun c => (c.map (fun j => point.getD j 0)).prod)

/-- Modelled from the spec (section 4.6): the prediction for one test point
under `fit_intercept`, using the train-derived scaling state — build the
point's design row, apply the train (mean, range) transform, take the dot
product with the train-fitted `beta`, and add the train-target mean. -/
def specTestPrediction (fit : List (List ℚ) → List ℚ → List ℚ)
    (trainInputs : List (List ℚ)) (trainTargets : List ℚ)
    (nfeat : ℕ) (n_pol : ℤ) (point : List ℚ) : ℚ :=
  match get_model_matrix trainInputs (.PInt n_pol) false with
  | .ok trainM =>
      let c := center trainM
      let beta := fit c.1 trainTargets
      listDot (rowScale c.2.1 c.2.2 (designRow nfeat n_pol point)) beta + meanL trainTargets
  | .error _ => 0

/-- Modelled from the spec: the column list of the model matrix in the
order the spec states — an all-ones intercept column if requested, then for
each degree `d` from 1 to `n_pol`, one column per combination-with-replacement
of `d` feature indices, each column being the pointwise product of the chosen
feature sequences (`n` is the common sequence length). -/
def specColumns (dp : List (List ℚ)) (n : ℕ) (n_pol : ℤ) (include_intercept : Bool) :
    List (List ℚ) :=
  (if include_intercept then [List.replicate n 1] else []) ++
    (indexCombinations dp.length n_pol).map
      (fun c => (List.range n).map (fun i => (c.map (fun j => (dp.getD j []).getD i 0)).prod))

/-- Models the regressor-kind tag passed to `get_beta`.  The six named
constructors are the members of `RegressorType` (modelled from the spec,
section 4.6: "one of: OLS, OLS via gradient descent, LASSO, RIDGE, RIDGE via
gradient descent, LOGISTIC"; the enum file itself is outside `src/`);
`other` stands for any value that is none of the six — the dispatcher
compares the tag by equality, so every such value reaches the `else`
branch. -/
inductive RegressorKind where
  | OLS | OLS_SGD | LASSO | RIDGE | RIDGE_SGD | LOGISTIC
  | other : String → RegressorKind
deriving DecidableEq

/-- The three cost-derivative strategies imported at line 7 of
`regressors.py` from `tools` (`calculate_cost_derivative_mse`,
`calculate_cost_derivative_ridge`, `calculate_cost_derivative_logistic`),
as tags identifying which function object the dispatcher passes to the
gradient-descent engine. -/
inductive CostDerivative where
  | mse | ridge | logistic
deriving DecidableEq

/-- The regressor-parameter bundle (spec section 3): the recognized keys the
dispatcher reads. -/
structure RegressorParams where
  learning_rate : ℚ
  max_iterations : ℕ
  momentum : ℚ
  batch_size : ℕ
  alpha : ℚ
deriving DecidableEq

/-- The call that one `get_beta` branch makes, recorded symbolically: the
numeric computations behind the branches (pseudo-inverse linear algebra,
`scipy.optimize.minimize`, the random-initialised stochastic gradient
descent of `sgd.py`) are external collaborators; what the dispatcher itself
decides is which of them is invoked and with which cost-derivative and
hyperparameters. -/
inductive BetaCall where
  | olsClosedForm
  | lassoMinimize : ℚ → BetaCall
  | ridgeClosedForm : ℚ → BetaCall
  | sgd : CostDerivative → ℚ → ℕ → ℚ → ℕ → ℚ → BetaCall
deriving DecidableEq

/-- Models the dispatch of `get_beta` (lines 82-129 of `regressors.py`):
each recognized kind returns the call its branch makes (the `sgd` arguments
are, in order, the cost-derivative function, `learning_rate`,
`max_iterations`, `momentum`, `batch_size` and `alpha` exactly as passed at
lines 98-127); every other tag falls to the `else` branch raising
`NotImplementedError`.  Note line 121: the `LOGISTIC` branch passes
`calculate_cost_derivative_mse`. -/
def get_beta (t : RegressorKind) (p : RegressorParams) : Except String BetaCall :=
  match t with
  | .OLS => .ok .olsClosedForm
  | .OLS_SGD => .ok (.sgd .mse p.learning_rate p.max_iterations p.momentum p.batch_size 0)
  | .LASSO => .ok (.lassoMinimize p.alpha)
  | .RIDGE => .ok (.ridgeClosedForm p.alpha)
  | .RIDGE_SGD => .ok (.sgd .ridge p.learning_rate p.max_iterations p.momentum p.batch_size p.alpha)
  | .LOGISTIC => .ok (.sgd .mse p.learning_rate p.max_iterations p.momentum p.batch_size p.alpha)
  | .other _ => .error "NotImplementedError: Regressor type not implemented"

open Matrix in
/-- Models `calculate_beta(model_matrix, targets)` (lines 9-10 of
`regressors.py`): `np.linalg.pinv(X.T @ X) @ X.T @ y`, left-associated as in
the source.  The external pseudo-inverse primitive of `np.linalg` is the
parameter `pinv` (spec section 4.3 treats it as an external collaborator). -/
def calculate_beta {m p : ℕ}
    (pinv : Matrix (Fin p) (Fin p) ℚ → Matrix (Fin p) (Fin p) ℚ)
    (X : Matrix (Fin m) (Fin p) ℚ) (y : Fin m → ℚ) : Fin p → ℚ :=
  (pinv (Xᵀ * X) * Xᵀ) *ᵥ y

open Matrix in
/-- Models `calculate_beta_ridge(model_matrix, targets, alpha)` (lines 19-20
of `regressors.py`): `np.linalg.pinv(X.T @ X + alpha * np.eye(X.shape[1])) @ X.T @ y`;
`np.eye(X.shape[1])` is the identity matrix indexed by the columns of `X`. -/
def calculate_beta_ridge {m p : ℕ}
    (pinv : Matrix (Fin p) (Fin p) ℚ → Matrix (Fin p) (Fin p) ℚ)
    (X : Matrix (Fin m) (Fin p) ℚ) (y : Fin m → ℚ) (alpha : ℚ) : Fin p → ℚ :=
  (pinv (Xᵀ * X + alpha • (1 : Matrix (Fin p) (Fin p) ℚ)) * Xᵀ) *ᵥ y

open Matrix in
/-- Modelled from the spec (section 4.3): `solve_ols(X, y)` "computing the
Moore-Penrose-pseudo-inverse-based normal-equations solution
`pinv(XᵗX) Xᵗy`". -/
def solve_ols_spec {m p : ℕ}
    (pinv : Matrix (Fin p) (Fin p) ℚ → Matrix (Fin p) (Fin p) ℚ)
    (X : Matrix (Fin m) (Fin p) ℚ) (y : Fin m → ℚ) : Fin p → ℚ :=
  pinv (Xᵀ * X) *ᵥ (Xᵀ *ᵥ y)

open Matrix in
/-- Modelled from the spec (section 4.3): `solve_ridge(X, y, alpha)`
"computing `pinv(XᵗX + alpha·I) Xᵗy`", `I` the identity of size equal to the
column count of `X`. -/
def solve_ridge_spec {m p : ℕ}
    (pinv : Matrix (Fin p) (Fin p) ℚ → Matrix (Fin p) (Fin p) ℚ)
    (X : Matrix (Fin m) (Fin p) ℚ) (y : Fin m → ℚ) (alpha : ℚ) : Fin p → ℚ :=
  pinv (Xᵀ * X + alpha • (1 : Matrix (Fin p) (Fin p) ℚ)) *ᵥ (Xᵀ *ᵥ y)

/-- Models the loop of `center` (lines 30-31 of `regressors.py`) acting on
the matrix object itself: `matrix[i] = (matrix[i] - m_mean) / divisor` for
`i` in `range(len(matrix))`, each iteration reading the current row and
writing the transformed row back into the same position. -/
def centerLoop (mean divisor : List ℚ) (M : List (List ℚ)) : List (List ℚ) :=
  (List.range M.length).foldl (fun cur i => cur.set i (rowScale mean divisor (cur.getD i []))) M

/-- Models `center` as Python executes it, with the heap made explicit: a
store maps addresses to matrix objects, `centerRef a` reads the matrix at
address `a`, computes the mean and range, runs the in-place row loop on the
object at `a`, and returns the same address together with the mean and
range (line 33 returns `matrix`, the very argument object). -/
def centerRef (a : ℕ) (σ : ℕ → List (List ℚ)) :
    ℕ × List ℚ × List ℚ × (ℕ → List (List ℚ)) :=
  let mat := σ a
  let m := colMeans mat
  let d := colRanges mat
  (a, m, d, Function.update σ a (centerLoop m d mat))

/-- A constant fitting function used to instantiate
`regressor_test_uses_train_scaling` on concrete data. -/
def constFit (_M : List (List ℚ)) (_t : List ℚ) : List ℚ := [0, 0]

/-! ### Helper lemmas about list indexing -/

/-- Indexing a map over a range picks out the function value. -/
lemma getD_map_range {α : Type} (f : ℕ → α) {n i : ℕ} (d : α) (h : i < n) :
    ((List.range n).map f).getD i d = f i := by
  have hlen : i < ((List.range n).map f).length := by simpa using h
  rw [List.getD_eq_getElem _ _ hlen, List.getElem_map, List.getElem_range]

/-- A list is recovered by tabulating its entries over its index range. -/
lemma range_map_getD {α : Type} (l : List α) (d : α) :
    (List.range l.length).map (fun i => l.getD i d) = l := by
  apply List.ext_getElem
  · simp
  · intro i h1 h2
    simp only [List.getElem_map, List.getElem_range]
    exact List.getD_eq_getElem l d h2

/-- Indexing a mapped list with an in-range index applies the function. -/
lemma getD_map {α β : Type} (f : α → β) (l : List α) (i : ℕ) (d : β) (d' : α)
    (h : i < l.length) :
    (l.map f).getD i d = f (l.getD i d') := by
  have h' : i < (l.map f).length := by simpa using h
  rw [List.getD_eq_getElem _ _ h', List.getElem_map, List.getD_eq_getElem _ _ h]

/-- Indexing a zipWith with an index in range of both lists. -/
lemma getD_zipWith {f : ℚ → ℚ → ℚ} {a b : List ℚ} {i : ℕ} (d da db : ℚ)
    (ha : i < a.length) (hb : i < b.length) :
    (List.zipWith f a b).getD i d = f (a.getD i da) (b.getD i db) := by
  have h : i < (List.zipWith f a b).length := by
    rw [List.length_zipWith]; exact lt_min ha hb
  rw [List.getD_eq_getElem _ _ h, List.getElem_zipWith,
    List.getD_eq_getElem _ _ ha, List.getD_eq_getElem _ _ hb]

/-- In-range entries of a list all satisfying a length bound. -/
lemma getD_length_of_forall {dp : List (List ℚ)} {n : ℕ}
    (h : ∀ s ∈ dp, s.length = n) {k : ℕ} (hk : k < dp.length) :
    (dp.getD k []).length = n := by
  apply h
  rw [List.getD_eq_getElem _ _ hk]
  exact List.getElem_mem hk

/-- Rows of `listTranspose`: row `i` collects the `i`-th entry of each
column. -/
lemma listTranspose_getD (cols : List (List ℚ)) (i : ℕ)
    (h : i < (cols.headD []).length) :
    (listTranspose cols).getD i [] = cols.map (fun c => c.getD i 0) := by
  rw [listTranspose, getD_map_range _ _ h]

/-- Length of `listTranspose`. -/
lemma listTranspose_length (cols : List (List ℚ)) :
    (listTranspose cols).length = (cols.headD []).length := by
  simp [listTranspose]

/-! ### Combinations with replacement -/

lemma cwr_zero {α : Type} (xs : List α) : cwr xs 0 = [[]] := rfl

lemma cwr_nil {α : Type} (k : ℕ) : cwr ([] : List α) (k + 1) = [] := rfl

lemma cwr_cons {α : Type} (x : α) (rest : List α) (k : ℕ) :
    cwr (x :: rest) (k + 1) =
      (cwr (x :: rest) k).map (fun c => x :: c) ++ cwr rest (k + 1) := rfl

/-- Every combination produced by `cwr _ k` has length `k`. -/
lemma cwr_mem_length {α : Type} (xs : List α) (k : ℕ) :
    ∀ c ∈ cwr xs k, c.length = k := by
  induction k generalizing xs with
  | zero => intro c hc; rw [cwr_zero] at hc; simp at hc; simp [hc]
  | succ k ih =>
    induction xs with
    | nil => intro c hc; rw [cwr_nil] at hc; simp at hc
    | cons x rest ihx =>
      intro c hc
      rw [cwr_cons] at hc
      rcases List.mem_append.mp hc with h | h
      · rcases List.mem_map.mp h with ⟨c', hc', rfl⟩
        simp [ih _ _ hc']
      · exact ihx _ h

/-- Every element of a combination comes from the source list. -/
lemma cwr_mem_subset {α : Type} (xs : List α) (k : ℕ) :
    ∀ c ∈ cwr xs k, ∀ y ∈ c, y ∈ xs := by
  induction k generalizing xs with
  | zero =>
    intro c hc y hy
    rw [cwr_zero] at hc
    simp at hc
    subst hc; simp at hy
  | succ k ih =>
    induction xs with
    | nil => intro c hc; rw [cwr_nil] at hc; simp at hc
    | cons x rest ihx =>
      intro c hc y hy
      rw [cwr_cons] at hc
      rcases List.mem_append.mp hc with h | h
      · rcases List.mem_map.mp h with ⟨c', hc', rfl⟩
        rcases List.mem_cons.mp hy with rfl | hy'
        · exact List.mem_cons_self _ _
        · exact ih _ _ hc' _ hy'
      · exact List.mem_cons_of_mem _ (ihx _ h _ hy)

/-- Combinations drawn from a sorted list are sorted (the itertools
non-decreasing-order guarantee, provable for this implementation). -/
lemma cwr_mem_sorted (xs : List ℕ) (k : ℕ) :
    List.Sorted (· ≤ ·) xs → ∀ c ∈ cwr xs k, List.Sorted (· ≤ ·) c := by
  induction k generalizing xs with
  | zero =>
    intro _ c hc
    rw [cwr_zero] at hc
    simp at hc
    simp [hc]
  | succ k ih =>
    induction xs with
    | nil => intro _ c hc; rw [cwr_nil] at hc; simp at hc
    | cons x rest ihx =>
      intro hxs c hc
      rw [cwr_cons] at hc
      rcases List.mem_append.mp hc with h | h
      · rcases List.mem_map.mp h with ⟨c', hc', rfl⟩
        rw [List.sorted_cons]
        refine ⟨?_, ih _ hxs _ hc'⟩
        intro b hb
        rcases List.mem_cons.mp (cwr_mem_subset _ _ _ hc' _ hb) with rfl | hb'
        · exact le_refl _
        · exact (List.sorted_cons.mp hxs).1 _ hb'
      · exact ihx (List.sorted_cons.mp hxs).2 _ h

/-- Structure of a member of `indexCombinations`: nonempty, with all
indices below the feature count. -/
lemma indexCombinations_mem (nfeat : ℕ) (z : ℤ) (co : List ℕ)
    (h : co ∈ indexCombinations nfeat z) :
    co ≠ [] ∧ ∀ k ∈ co, k < nfeat := by
  rw [indexCombinations, List.mem_flatten] at h
  obtain ⟨l, hl, hco⟩ := h
  rw [List.mem_map] at hl
  obtain ⟨deg, hdeg, rfl⟩ := hl
  have hdeg1 : 1 ≤ deg := (List.mem_range'_1.mp hdeg).1
  constructor
  · intro hnil
    have hlen := cwr_mem_length _ _ _ hco
    rw [hnil] at hlen
    simp at hlen
    omega
  · intro k hk
    exact List.mem_range.mp (cwr_mem_subset _ _ _ hco _ hk)

/-- Members of `indexCombinations` are sorted in non-decreasing index
order. -/
lemma indexCombinations_mem_sorted (nfeat : ℕ) (z : ℤ) (co : List ℕ)
    (h : co ∈ indexCombinations nfeat z) :
    List.Sorted (· ≤ ·) co := by
  rw [indexCombinations, List.mem_flatten] at h
  obtain ⟨l, hl, hco⟩ := h
  rw [List.mem_map] at hl
  obtain ⟨deg, _, rfl⟩ := hl
  exact cwr_mem_sorted _ _ ((List.sorted_lt_range nfeat).imp le_of_lt) _ hco

/-! ### Pointwise characterisation of the elementwise product columns -/

/-- The zipWith-product fold computes pointwise products. -/
lemma foldl_zipWith_prod (dp : List (List ℚ)) (n : ℕ) :
    ∀ (c : List ℕ) (acc : List ℚ), acc.length = n →
      (∀ k ∈ c, (dp.getD k []).length = n) →
      c.foldl (fun a k => List.zipWith (· * ·) a (dp.getD k [])) acc =
        (List.range n).map
          (fun i => acc.getD i 0 * (c.map (fun f => (dp.getD f []).getD i 0)).prod) := by
  intro c
  induction c with
  | nil =>
    intro acc hlen _
    simp only [List.foldl_nil, List.map_nil, List.prod_nil, mul_one]
    subst hlen
    exact (range_map_getD acc 0).symm
  | cons k c ih =>
    intro acc hlen hmem
    have hk : (dp.getD k []).length = n := hmem k (List.mem_cons_self k c)
    have hacc : (List.zipWith (· * ·) acc (dp.getD k [])).length = n := by
      rw [List.length_zipWith, hlen, hk]; exact min_self n
    rw [List.foldl_cons, ih _ hacc (fun j hj => hmem j (List.mem_cons_of_mem _ hj))]
    apply List.map_congr_left
    intro i hi
    have hi' : i < n := List.mem_range.mp hi
    rw [getD_zipWith 0 0 0 (by rw [hlen]; exact hi') (by rw [hk]; exact hi'),
      List.map_cons, List.prod_cons, mul_assoc]

/-- The source's running elementwise product over a nonempty index
combination equals the pointwise product of the selected feature values. -/
lemma ewProd_eq_pointwise (dp : List (List ℚ)) (n : ℕ) (j : ℕ) (c : List ℕ)
    (hj : (dp.getD j []).length = n) (hc : ∀ k ∈ c, (dp.getD k []).length = n) :
    ewProd dp (j :: c) =
      (List.range n).map
        (fun i => ((j :: c).map (fun f => (dp.getD f []).getD i 0)).prod) := by
  rw [ewProd, foldl_zipWith_prod dp n c _ hj hc]
  apply List.map_congr_left
  intro i _
  rw [List.map_cons, List.prod_cons]

/-! ### Unfolding `get_model_matrix` on inputs that pass the checks -/

/-- With at least two feature sequences whose first two lengths agree and an
integer degree, `get_model_matrix` succeeds with the transposed column
list. -/
lemma get_model_matrix_ok (a b : List ℚ) (t : List (List ℚ)) (z : ℤ) (ii : Bool)
    (hab : a.length = b.length) :
    get_model_matrix (a :: b :: t) (.PInt z) ii =
      .ok (listTranspose ((if ii then [List.replicate a.length 1] else []) ++
        (indexCombinations (a :: b :: t).length z).map (ewProd (a :: b :: t)))) := by
  simp only [get_model_matrix, shapeCheck, hab, if_pos, List.getD_cons_zero]
  rfl

/-- A non-integer `n_pol` fails the type assertion whenever the shape check
passes. -/
lemma get_model_matrix_nonint (a b : List ℚ) (t : List (List ℚ)) (v : PyNum)
    (ii : Bool) (hab : a.length = b.length) (hv : isIntType v = false) :
    get_model_matrix (a :: b :: t) v ii = .error "AssertionError: n_pol type" := by
  cases v with
  | PInt z => simp [isIntType] at hv
  | PFloat q =>
    simp only [get_model_matrix, shapeCheck, hab, if_pos]
    rfl
  | PBool o =>
    simp only [get_model_matrix, shapeCheck, hab, if_pos]
    rfl

/-! ### Claims about `get_model_matrix` -/

/-- C1 (amended: at least two feature sequences — with exactly one the
broken shape-check loop raises `IndexError`, see
`get_model_matrix_single_feature_fails`): for every collection of at least
two equal-length feature sequences and every non-negative integer `n_pol`,
`get_model_matrix` succeeds and its columns are, in order: the all-ones
intercept column if requested, then for each degree `d` from 1 to `n_pol`
one column per combination-with-replacement of `d` feature indices, each
column the elementwise product of the chosen feature sequences
(`specColumns`, written from the spec); and every enumerated index
combination is in sorted non-decreasing order. -/
theorem get_model_matrix_column_order (dp : List (List ℚ)) (n d : ℕ) (ii : Bool)
    (c : List ℕ) (h2 : 2 ≤ dp.length) (hlen : ∀ s ∈ dp, s.length = n)
    (hc : c ∈ indexCombinations dp.length (d : ℤ)) :
    get_model_matrix dp (.PInt (d : ℤ)) ii =
        .ok (listTranspose (specColumns dp n (d : ℤ) ii)) ∧
      List.Sorted (· ≤ ·) c := by
  refine ⟨?_, indexCombinations_mem_sorted _ _ _ hc⟩
  obtain ⟨a, b, t, rfl⟩ : ∃ a b t, dp = a :: b :: t := by
    match dp, h2 with
    | a :: b :: t, _ => exact ⟨a, b, t, rfl⟩
  have ha : a.length = n := hlen a (by simp)
  have hb : b.length = n := hlen b (by simp)
  rw [get_model_matrix_ok a b t _ ii (by rw [ha, hb])]
  rw [specColumns, ha]
  have hmap : (indexCombinations (a :: b :: t).length (d : ℤ)).map (ewProd (a :: b :: t)) =
      (indexCombinations (a :: b :: t).length (d : ℤ)).map
        (fun co => (List.range n).map
          (fun i => (co.map (fun j => ((a :: b :: t).getD j []).getD i 0)).prod)) := by
    apply List.map_congr_left
    intro co hco
    obtain ⟨hne, hbound⟩ := indexCombinations_mem _ _ _ hco
    obtain ⟨j, c', rfl⟩ : ∃ j c', co = j :: c' := by
      cases co with
      | nil => exact absurd rfl hne
      | cons j c' => exact ⟨j, c', rfl⟩
    exact ewProd_eq_pointwise _ n j c'
      (getD_length_of_forall hlen (hbound j (by simp)))
      (fun k hk => getD_length_of_forall hlen (hbound k (by simp [hk])))
  rw [hmap]

/-- Witness for `get_model_matrix_column_order` at two features, degree 2,
no intercept: exactly the columns `[x, y, x*x, x*y, y*y]` of the claim. -/
theorem get_model_matrix_column_order_witness :
    get_model_matrix [[1,2],[3,4]] (.PInt ((2:ℕ):ℤ)) false =
        .ok (listTranspose (specColumns [[1,2],[3,4]] 2 ((2:ℕ):ℤ) false)) ∧
      List.Sorted (· ≤ ·) [0,1] :=
  get_model_matrix_column_order [[1,2],[3,4]] 2 2 false [0,1]
    (by decide) (by decide) (by decide)

/-- Counterexample to C1 as stated over every collection: a single feature
sequence is a collection of equal-length sequences, yet the shape-check
loop's unconditional read of `data_points[1]` raises `IndexError` instead
of producing the matrix with column `[x]`. -/
theorem get_model_matrix_single_feature_fails :
    get_model_matrix [[1,2]] (.PInt 1) false = .error "IndexError" := rfl

/-- C3 evaluation: the check loop compares only sequences 0 and 1, so a
collection whose third sequence has a different length passes the assertion
and the function returns a (malformed) matrix instead of failing. -/
theorem unequal_lengths_pass_shape_check :
    shapeCheck [[1,2],[3,4],[5,6,7]] = .ok () ∧
      (get_model_matrix [[1,2],[3,4],[5,6,7]] (.PInt 1) false).isOk = true :=
  ⟨rfl, rfl⟩

/-- C4 evaluation: on the single feature `[1,2,3]` with `n_pol=1` and
`include_intercept=True` the code raises `IndexError` (from
`data_points[1]` in the check loop) instead of returning
`[[1,1],[1,2],[1,3]]`. -/
theorem single_feature_index_error :
    get_model_matrix [[1,2,3]] (.PInt 1) true = .error "IndexError" := rfl

/-- C5 (amended: `get_model_matrix` accepts `n_pol` exactly when its Python
type is `int` — the assertion `type(n_pol) == int` rejects floats and bools —
and a negative integer is accepted, silently producing a matrix with no
polynomial columns, only the intercept column when requested). -/
theorem npol_type_gate (dp : List (List ℚ)) (v : PyNum) (z : ℤ) (b : Bool) (n : ℕ)
    (h2 : 2 ≤ dp.length) (hlen : ∀ s ∈ dp, s.length = n) (hz : z < 0) :
    (get_model_matrix dp v b).isOk = isIntType v ∧
      get_model_matrix dp (.PInt z) b =
        .ok (listTranspose (if b then [List.replicate n 1] else [])) := by
  obtain ⟨a0, a1, t, rfl⟩ : ∃ a0 a1 t, dp = a0 :: a1 :: t := by
    match dp, h2 with
    | a0 :: a1 :: t, _ => exact ⟨a0, a1, t, rfl⟩
  have ha : a0.length = n := hlen a0 (by simp)
  have hb : a1.length = n := hlen a1 (by simp)
  constructor
  · cases hv : isIntType v
    · rw [get_model_matrix_nonint a0 a1 t v b (by rw [ha, hb]) hv]; rfl
    · cases v with
      | PInt z' => rw [get_model_matrix_ok a0 a1 t z' b (by rw [ha, hb])]; rfl
      | PFloat q => simp [isIntType] at hv
      | PBool o => simp [isIntType] at hv
  · rw [get_model_matrix_ok a0 a1 t z b (by rw [ha, hb])]
    have hcomb : indexCombinations (a0 :: a1 :: t).length z = [] := by
      rw [indexCombinations, Int.toNat_of_nonpos (le_of_lt hz)]
      rfl
    rw [hcomb, ha]
    simp

/-- Witness for `npol_type_gate`: a `bool` degree is rejected, `-1` is
accepted with only the intercept column. -/
theorem npol_type_gate_witness :
    (get_model_matrix [[1,2],[3,4]] (.PBool true) true).isOk = isIntType (.PBool true) ∧
      get_model_matrix [[1,2],[3,4]] (.PInt (-1)) true =
        .ok (listTranspose (if true then [List.replicate 2 1] else [])) :=
  npol_type_gate [[1,2],[3,4]] (.PBool true) (-1) true 2 (by decide) (by decide) (by decide)

/-- Counterexample to C5 as stated: the negative integer `-3` is not
rejected — the call succeeds and returns the intercept-only matrix. -/
theorem negative_npol_accepted :
    get_model_matrix [[5],[6]] (.PInt (-3)) true = .ok [[1]] := rfl

/-! ### Unfolding the `fit_intercept` regressor branch -/

/-- Indexing a prediction vector at an in-range row. -/
lemma get_prediction_getD (M : List (List ℚ)) (beta : List ℚ) (c : ℚ) (i : ℕ)
    (h : i < M.length) :
    (get_prediction M beta c).getD i 0 = listDot (M.getD i []) beta + c := by
  rw [get_prediction, getD_map _ M i 0 [] h]

/-- Inversion for a successful `Except` bind. -/
lemma except_bind_ok {α β : Type} (x : Except String α) (f : α → Except String β) (b : β)
    (h : x.bind f = .ok b) : ∃ a, x = .ok a ∧ f a = .ok b := by
  cases x with
  | error e => exact absurd h (by simp [Except.bind])
  | ok a => exact ⟨a, rfl, h⟩

/-- Reduction of a bind on a successful `Except` value. -/
lemma bind_ok_eq {α β : Type} (a : α) (f : α → Except String β) :
    (Except.ok a : Except String α) >>= f = f a := rfl

/-- A successful `regressor_fit_intercept` run determines both model
matrices and the two prediction vectors. -/
lemma regressor_fit_intercept_ok (fit : List (List ℚ) → List ℚ → List ℚ)
    (trainI : List (List ℚ)) (trainT : List ℚ) (testI : List (List ℚ))
    (v : PyNum) (r : List ℚ × List ℚ)
    (h : regressor_fit_intercept fit trainI trainT testI v = .ok r) :
    ∃ trainM testM, get_model_matrix trainI v false = .ok trainM ∧
      get_model_matrix testI v false = .ok testM ∧
      r = (get_prediction (center trainM).1 (fit (center trainM).1 trainT) (meanL trainT),
        get_prediction (testM.map (rowScale (center trainM).2.1 (center trainM).2.2))
          (fit (center trainM).1 trainT) (meanL trainT)) := by
  rw [regressor_fit_intercept] at h
  obtain ⟨trainM, htr, h⟩ := except_bind_ok _ _ _ h
  obtain ⟨testM, hte, h⟩ := except_bind_ok _ _ _ h
  refine ⟨trainM, testM, htr, hte, ?_⟩
  injection h with h
  exact h.symm

/-- With at least one feature and degree at least one, the first enumerated
index combination is the degree-1 singleton `[0]`. -/
lemma indexCombinations_head (m e : ℕ) :
    indexCombinations (m + 1) ((e + 1 : ℕ) : ℤ) =
      [0] :: (cwr (List.map Nat.succ (List.range m)) 1 ++
        ((List.range' 2 e).map (fun d => cwr (List.range (m + 1)) d)).flatten) := by
  rw [indexCombinations, Int.toNat_natCast, List.range'_succ, List.map_cons,
    List.flatten_cons, List.range_succ_eq_map,
    cwr_cons 0 (List.map Nat.succ (List.range m)) 0, cwr_zero]
  simp [List.range_succ_eq_map]

/-- C2: under `fit_intercept`, the prediction for test point `i` equals the
spec's formula — the point's design row transformed with the *train-derived*
mean and range, dotted with the train-fitted `beta`, plus the train-target
mean (`specTestPrediction`, written from the spec).  The right-hand side
depends on the test set only through the single point `pointAt testI i`, so
holding the train data fixed, a test prediction does not depend on the
other test points, which would fail if the scaling state were recomputed
from test data. -/
theorem regressor_test_uses_train_scaling
    (fit : List (List ℚ) → List ℚ → List ℚ)
    (trainI : List (List ℚ)) (trainT : List ℚ) (testI : List (List ℚ))
    (d n i : ℕ) (r : List ℚ × List ℚ)
    (hd : 1 ≤ d) (hf : 2 ≤ testI.length)
    (hn : ∀ s ∈ testI, s.length = n) (hi : i < n)
    (h : regressor_fit_intercept fit trainI trainT testI (.PInt (d : ℤ)) = .ok r) :
    r.2.getD i 0 =
      specTestPrediction fit trainI trainT testI.length (d : ℤ) (pointAt testI i) := by
  obtain ⟨trainM, testM, htr, hte, rfl⟩ := regressor_fit_intercept_ok _ _ _ _ _ _ h
  obtain ⟨s0, s1, rest, rfl⟩ : ∃ s0 s1 rest, testI = s0 :: s1 :: rest := by
    match testI, hf with
    | s0 :: s1 :: rest, _ => exact ⟨s0, s1, rest, rfl⟩
  obtain ⟨e, rfl⟩ : ∃ e, d = e + 1 := ⟨d - 1, (Nat.succ_pred_eq_of_pos hd).symm⟩
  have hs0 : s0.length = n := hn s0 (by simp)
  have hs1 : s1.length = n := hn s1 (by simp)
  rw [get_model_matrix_ok s0 s1 rest _ false (by rw [hs0, hs1])] at hte
  simp only [Bool.false_eq_true, if_false, List.nil_append] at hte
  injection hte with hte
  subst hte
  simp only [specTestPrediction, htr]
  have hnf : (s0 :: s1 :: rest).length = rest.length + 1 + 1 := by simp
  rw [hnf, designRow, indexCombinations_head (rest.length + 1) e]
  have hhead : (List.map (ewProd (s0 :: s1 :: rest))
      ([0] :: (cwr (List.map Nat.succ (List.range (rest.length + 1))) 1 ++
        ((List.range' 2 e).map
          (fun d => cwr (List.range (rest.length + 1 + 1)) d)).flatten))).headD [] = s0 := rfl
  have hlenT : (listTranspose (List.map (ewProd (s0 :: s1 :: rest))
      ([0] :: (cwr (List.map Nat.succ (List.range (rest.length + 1))) 1 ++
        ((List.range' 2 e).map
          (fun d => cwr (List.range (rest.length + 1 + 1)) d)).flatten)))).length = n := by
    rw [listTranspose_length, hhead, hs0]
  rw [get_prediction_getD _ _ _ i (by rw [List.length_map, hlenT]; exact hi)]
  rw [getD_map _ _ i [] [] (by rw [hlenT]; exact hi)]
  rw [listTranspose_getD _ i (by rw [hhead, hs0]; exact hi)]
  have hmap : (List.map (ewProd (s0 :: s1 :: rest))
      ([0] :: (cwr (List.map Nat.succ (List.range (rest.length + 1))) 1 ++
        ((List.range' 2 e).map
          (fun d => cwr (List.range (rest.length + 1 + 1)) d)).flatten))).map
        (fun c => c.getD i 0) =
      ([0] :: (cwr (List.map Nat.succ (List.range (rest.length + 1))) 1 ++
        ((List.range' 2 e).map
          (fun d => cwr (List.range (rest.length + 1 + 1)) d)).flatten)).map
        (fun c => (List.map (fun j => (pointAt (s0 :: s1 :: rest) i).getD j 0) c).prod) := by
    rw [List.map_map]
    apply List.map_congr_left
    intro co hco
    have hco' : co ∈ indexCombinations (rest.length + 1 + 1) ((e + 1 : ℕ) : ℤ) := by
      rw [indexCombinations_head (rest.length + 1) e]; exact hco
    obtain ⟨hne, hbound⟩ := indexCombinations_mem _ _ _ hco'
    obtain ⟨j, c', rfl⟩ : ∃ j c', co = j :: c' := by
      cases co with
      | nil => exact absurd rfl hne
      | cons j c' => exact ⟨j, c', rfl⟩
    have hblen : ∀ k ∈ j :: c', k < (s0 :: s1 :: rest).length := by
      intro k hk; rw [hnf]; exact hbound k hk
    show (ewProd (s0 :: s1 :: rest) (j :: c')).getD i 0 = _
    rw [ewProd_eq_pointwise _ n j c'
        (getD_length_of_forall hn (hblen j (by simp)))
        (fun k hk => getD_length_of_forall hn (hblen k (by simp [hk])))]
    rw [getD_map_range _ _ hi]
    congr 1
    apply List.map_congr_left
    intro k hk
    exact (getD_map (fun s => s.getD i 0) _ k 0 [] (hblen k hk)).symm
  rw [hmap]

set_option maxRecDepth 8000 in
/-- Witness for `regressor_test_uses_train_scaling` on concrete data: two
features, degree 1, constant fit; the test prediction at point 0 matches
the spec formula. -/
theorem regressor_test_uses_train_scaling_witness :
    (([3, 3], [3, 3]) : List ℚ × List ℚ).2.getD 0 0 =
      specTestPrediction constFit [[1, 2], [3, 5]] [2, 4] 2 ((1 : ℕ) : ℤ)
        (pointAt [[5, 6], [7, 9]] 0) :=
  regressor_test_uses_train_scaling constFit [[1, 2], [3, 5]] [2, 4] [[5, 6], [7, 9]]
    1 2 0 ([3, 3], [3, 3]) (by decide) (by decide) (by decide) (by decide)
    (by norm_num [regressor_fit_intercept, get_model_matrix, shapeCheck, indexCombinations,
      cwr, cwrK, cwrGo, ewProd, listTranspose, center, colMeans, colRanges, rowScale,
      get_prediction, listDot, meanL, List.range'_succ, bind_ok_eq, List.range_succ,
      maxL, minL, constFit])

/-! ### Solver formulas, dispatch, and the in-place scaler -/

open Matrix in
/-- C7: the closed-form solvers compute exactly the spec's normal-equations
formulas — `calculate_beta` is `pinv(XᵗX) Xᵗy` and `calculate_beta_ridge`
is `pinv(XᵗX + alpha·I) Xᵗy` with `I` the identity indexed by the columns
of `X`; both are plain compositions of the external pseudo-inverse with
matrix products, with no iteration. -/
theorem solver_formulas_match_spec {m p : ℕ}
    (pinv : Matrix (Fin p) (Fin p) ℚ → Matrix (Fin p) (Fin p) ℚ)
    (X : Matrix (Fin m) (Fin p) ℚ) (y : Fin m → ℚ) (alpha : ℚ) :
    calculate_beta pinv X y = solve_ols_spec pinv X y ∧
      calculate_beta_ridge pinv X y alpha = solve_ridge_spec pinv X y alpha := by
  constructor
  · rw [calculate_beta, solve_ols_spec, Matrix.mulVec_mulVec]
  · rw [calculate_beta_ridge, solve_ridge_spec, Matrix.mulVec_mulVec]

/-- C9: every tag that is none of the six recognized kinds reaches the
`else` branch of `get_beta` and raises `NotImplementedError`, returning no
parameter vector; conversely the dispatch fails exactly on such tags, so
there is no silent fallback. -/
theorem get_beta_unknown_kind (s : String) (p : RegressorParams) (t : RegressorKind) :
    get_beta (.other s) p = .error "NotImplementedError: Regressor type not implemented" ∧
      ((get_beta t p).isOk = false ↔ ∃ u, t = .other u) := by
  refine ⟨rfl, ?_⟩
  cases t <;> simp [get_beta, Except.isOk, Except.toBool]

/-- C6 evaluation: the `LOGISTIC` branch of `get_beta` hands the
gradient-descent engine `calculate_cost_derivative_mse` — the plain MSE
cost-derivative, which is a different strategy than the sigmoid-linked
`calculate_cost_derivative_logistic` the spec prescribes (and which line 7
of `regressors.py` imports without ever using). -/
theorem logistic_branch_uses_mse (p : RegressorParams) :
    get_beta .LOGISTIC p =
        .ok (.sgd .mse p.learning_rate p.max_iterations p.momentum p.batch_size p.alpha) ∧
      CostDerivative.mse ≠ CostDerivative.logistic :=
  ⟨rfl, by decide⟩

/-- The in-place row loop of `center` rewrites the matrix to its rowwise
transform. -/
lemma centerLoop_set (mean divisor : List ℚ) :
    ∀ (tail done : List (List ℚ)),
      (List.range' done.length tail.length).foldl
          (fun cur i => cur.set i (rowScale mean divisor (cur.getD i []))) (done ++ tail) =
        done ++ tail.map (rowScale mean divisor) := by
  intro tail
  induction tail with
  | nil => intro done; simp
  | cons t ts ih =>
    intro done
    rw [List.length_cons, List.range'_succ, List.foldl_cons]
    have hget : (done ++ t :: ts).getD done.length [] = t := by
      rw [List.getD_eq_getElem _ _ (by simp)]
      rw [List.getElem_append_right (le_refl done.length)]
      simp
    have hset : (done ++ t :: ts).set done.length (rowScale mean divisor t) =
        done ++ rowScale mean divisor t :: ts := by
      rw [List.set_append]
      simp
    rw [hget, hset]
    have h2 := ih (done ++ [rowScale mean divisor t])
    simp only [List.length_append, List.length_cons, List.length_nil] at h2
    simpa using h2

/-- `centerLoop` is the rowwise scaler transform. -/
lemma centerLoop_eq_map (mean divisor : List ℚ) (M : List (List ℚ)) :
    centerLoop mean divisor M = M.map (rowScale mean divisor) := by
  have h := centerLoop_set mean divisor M []
  simpa [centerLoop, List.range_eq_range'] using h

/-- C10: `center` mutates its argument object in place and returns it — the
address handed back is the argument's address, and the store afterwards
holds the centered matrix at that address, so the caller's name for the
original matrix (`train_model_matrix` in `regressor`) now denotes the
centered matrix `(center _).1` and the uncentered data is no longer
reachable through it. -/
theorem centerRef_in_place (a : ℕ) (σ : ℕ → List (List ℚ)) :
    (centerRef a σ).1 = a ∧
      (centerRef a σ).2.2.2 = Function.update σ a (center (σ a)).1 ∧
      (centerRef a σ).2.2.2 a = (center (σ a)).1 := by
  refine ⟨rfl, ?_, ?_⟩
  · show Function.update σ a (centerLoop (colMeans (σ a)) (colRanges (σ a)) (σ a)) = _
    rw [centerLoop_eq_map]
    rfl
  · show Function.update σ a (centerLoop (colMeans (σ a)) (colRanges (σ a)) (σ a)) a = _
    rw [centerLoop_eq_map, Function.update_same]
    rfl

/-! ### Scaler round-trip -/

/-- The running maximum bounds the seed and every traversed element. -/
lemma foldl_max_le (l : List ℚ) :
    ∀ x : ℚ, x ≤ l.foldl max x ∧ ∀ y ∈ l, y ≤ l.foldl max x := by
  induction l with
  | nil => intro x; exact ⟨le_refl x, by simp⟩
  | cons a l ih =>
    intro x
    rw [List.foldl_cons]
    obtain ⟨h1, h2⟩ := ih (max x a)
    refine ⟨le_trans (le_max_left x a) h1, ?_⟩
    intro y hy
    rcases List.mem_cons.mp hy with rfl | hy'
    · exact le_trans (le_max_right x y) h1
    · exact h2 y hy'

/-- The running minimum is below the seed and every traversed element. -/
lemma foldl_min_le (l : List ℚ) :
    ∀ x : ℚ, l.foldl min x ≤ x ∧ ∀ y ∈ l, l.foldl min x ≤ y := by
  induction l with
  | nil => intro x; exact ⟨le_refl x, by simp⟩
  | cons a l ih =>
    intro x
    rw [List.foldl_cons]
    obtain ⟨h1, h2⟩ := ih (min x a)
    refine ⟨le_trans h1 (min_le_left x a), ?_⟩
    intro y hy
    rcases List.mem_cons.mp hy with rfl | hy'
    · exact le_trans h1 (min_le_right x y)
    · exact h2 y hy'

/-- Every member is bounded by `maxL`. -/
lemma le_maxL (c : List ℚ) (y : ℚ) (hy : y ∈ c) : y ≤ maxL c := by
  cases c with
  | nil => simp at hy
  | cons x xs =>
    rw [maxL]
    rcases List.mem_cons.mp hy with rfl | hy'
    · exact (foldl_max_le xs y).1
    · exact (foldl_max_le xs x).2 y hy'

/-- `minL` is below every member. -/
lemma minL_le (c : List ℚ) (y : ℚ) (hy : y ∈ c) : minL c ≤ y := by
  cases c with
  | nil => simp at hy
  | cons x xs =>
    rw [minL]
    rcases List.mem_cons.mp hy with rfl | hy'
    · exact (foldl_min_le xs y).1
    · exact (foldl_min_le xs x).2 y hy'

/-- A column containing two distinct values has nonzero range. -/
lemma colRange_ne_zero (c : List ℚ) (a b : ℚ) (ha : a ∈ c) (hb : b ∈ c)
    (hab : a ≠ b) : maxL c - minL c ≠ 0 := by
  intro h0
  have h1 : a ≤ maxL c := le_maxL c a ha
  have h2 : minL c ≤ a := minL_le c a ha
  have h3 : b ≤ maxL c := le_maxL c b hb
  have h4 : minL c ≤ b := minL_le c b hb
  have h5 : maxL c = minL c := sub_eq_zero.mp h0
  exact hab (by linarith)

/-- Undoing the scaler transform on one row recovers the row, provided the
per-column divisors are nonzero. -/
lemma rowScale_roundtrip (m dv r : List ℚ) (p : ℕ)
    (hr : r.length = p) (hm : m.length = p) (hd : dv.length = p)
    (hdz : ∀ j, (hj : j < dv.length) → dv[j] ≠ 0) :
    List.zipWith (· + ·) (List.zipWith (· * ·) (rowScale m dv r) dv) m = r := by
  apply List.ext_getElem
  · simp [rowScale, hr, hm, hd]
  · intro j h1 h2
    simp only [rowScale, List.getElem_zipWith]
    rw [div_mul_cancel₀ _ (hdz j (by rw [hd]; rw [hr] at h2; exact h2))]
    exact sub_add_cancel _ _

/-- C8: for every nonempty rectangular matrix with no constant column, the
scaler transform `(matrix - mean) / range` is undone exactly by
`(scaled * range) + mean`, recovering the original matrix (exact over the
rationals; within floating-point tolerance numerically). -/
theorem center_roundtrip (M : List (List ℚ)) (p : ℕ)
    (hne : M ≠ []) (hrect : ∀ r ∈ M, r.length = p)
    (hnc : ∀ j < p, ∃ r ∈ M, ∃ r' ∈ M, r.getD j 0 ≠ r'.getD j 0) :
    (center M).1.map
        (fun row => List.zipWith (· + ·)
          (List.zipWith (· * ·) row (center M).2.2) (center M).2.1) = M := by
  obtain ⟨r0, M', rfl⟩ : ∃ r0 M', M = r0 :: M' := by
    cases M with
    | nil => exact absurd rfl hne
    | cons r0 M' => exact ⟨r0, M', rfl⟩
  have hr0 : r0.length = p := hrect r0 (by simp)
  have hTlen : (listTranspose (r0 :: M')).length = p := by
    rw [listTranspose_length]; simpa using hr0
  have hm : (colMeans (r0 :: M')).length = p := by
    rw [colMeans, List.length_map, hTlen]
  have hd : (colRanges (r0 :: M')).length = p := by
    rw [colRanges, List.length_map, hTlen]
  have hdz : ∀ j, (hj : j < (colRanges (r0 :: M')).length) →
      (colRanges (r0 :: M'))[j] ≠ 0 := by
    intro j hj
    have hjp : j < p := by rw [hd] at hj; exact hj
    obtain ⟨r, hrM, r', hr'M, hne'⟩ := hnc j hjp
    have hjT : j < (listTranspose (r0 :: M')).length := by rw [hTlen]; exact hjp
    have hlt : (listTranspose (r0 :: M'))[j] =
        (r0 :: M').map (fun c => c.getD j 0) := by
      rw [← List.getD_eq_getElem _ [] hjT]
      exact listTranspose_getD _ j (by simpa [hr0] using hjp)
    simp only [colRanges, List.getElem_map]
    rw [hlt]
    exact colRange_ne_zero _ (r.getD j 0) (r'.getD j 0)
      (List.mem_map_of_mem _ hrM) (List.mem_map_of_mem _ hr'M) hne'
  simp only [center]
  rw [List.map_map]
  apply List.ext_getElem
  · simp
  · intro k h1 h2
    simp only [List.getElem_map, Function.comp_apply]
    exact rowScale_roundtrip _ _ _ p (hrect _ (List.getElem_mem h2)) hm hd hdz

/-- Witness for `center_roundtrip` on a concrete 2-by-2 matrix with two
nonconstant columns. -/
theorem center_roundtrip_witness :
    (center [[1, 2], [3, 5]]).1.map
        (fun row => List.zipWith (· + ·)
          (List.zipWith (· * ·) row (center [[1, 2], [3, 5]]).2.2)
          (center [[1, 2], [3, 5]]).2.1) = [[1, 2], [3, 5]] :=
  center_roundtrip [[1, 2], [3, 5]] 2 (by simp) (by simp)
    (by
      intro j hj
      interval_cases j
      · exact ⟨[1, 2], by simp, [3, 5], by simp, by norm_num⟩
      · exact ⟨[1, 2], by simp, [3, 5], by simp, by norm_num⟩)
